import Mathlib

/-!
Shallow embedding of the core rating / betting logic of the
`tennis_predictions` repository:

* `src/src/prediction/elo_rating_system.py` (`TennisEloRatingSystem`)
* `src/src/core/domain_models.py` (`BettingEdge`, `ValueBet`)
* `src/src/core/constants.py` (thresholds, Kelly fraction)
* `src/src/infrastructure/adapters.py` (`StandardOddsConverter`)
* `src/src/services/betting_service.py` (`_select_best_bet_per_match`)

Python floats are modelled as exact rationals; the only transcendental
step (the logistic Elo formula `1 / (1 + 10 ** x)`) is modelled over the
reals.  Python exceptions are modelled with `Except String`, the message
being the exception text.  The wall clock (`datetime.now()`) is passed
explicitly as a `Date` argument, and dates keep exactly the fields the
code reads (`year`, `month`).
-/

/-- Python builtin `max` on two rationals (returns the first argument on
ties, as Python does).  Agrees with Mathlib `max`; spelled out so that
concrete states evaluate by kernel reduction. -/
def pyMax (a b : ℚ) : ℚ := if a ≥ b then a else b

/-- Python builtin `abs` on a rational, spelled out so that concrete
states evaluate by kernel reduction.  Agrees with Mathlib `|.|`. -/
def pyAbs (a : ℚ) : ℚ := if a < 0 then -a else a

/-- Decidable equality for exception-modelling results. -/
instance {α β : Type} [DecidableEq α] [DecidableEq β] :
    DecidableEq (Except α β) := fun x y =>
  match x, y with
  | .error a, .error b =>
    if h : a = b then .isTrue (congrArg Except.error h)
    else .isFalse (fun hh => h (Except.error.inj hh))
  | .ok a, .ok b =>
    if h : a = b then .isTrue (congrArg Except.ok h)
    else .isFalse (fun hh => h (Except.ok.inj hh))
  | .error _, .ok _ => .isFalse (fun hh => Except.noConfusion hh)
  | .ok _, .error _ => .isFalse (fun hh => Except.noConfusion hh)

/-- Constant `DEFAULT_RATING = 1500` from `TennisEloRatingSystem`. -/
def DEFAULT_RATING : ℚ := 1500

/-- Constant `MONTHLY_DECAY_RATE = 0.015` from `TennisEloRatingSystem`. -/
def MONTHLY_DECAY_RATE : ℚ := 15/1000

/-- Constant `MIN_RATING_AFTER_DECAY = 1200` from `TennisEloRatingSystem`. -/
def MIN_RATING_AFTER_DECAY : ℚ := 1200

/-- Constant `DEFAULT_SURFACE_ADVANTAGE = 50.0` from `src/core/constants.py`,
used as `self.surface_advantage` by the rating system. -/
def DEFAULT_SURFACE_ADVANTAGE : ℚ := 50

/-- Constant `STRONG_BET_THRESHOLD = 10.0` from `src/core/constants.py`. -/
def STRONG_BET_THRESHOLD : ℚ := 10

/-- Constant `BET_THRESHOLD = 5.0` from `src/core/constants.py`. -/
def BET_THRESHOLD : ℚ := 5

/-- Constant `KELLY_FRACTION = 0.25` from `src/core/constants.py`. -/
def KELLY_FRACTION : ℚ := 1/4

/-- Calendar date reduced to the two fields the rating code reads from a
`datetime` (`.year` and `.month`). -/
structure Date where
  year : Int
  month : Int
deriving DecidableEq

/-- Month difference exactly as computed in `_apply_time_decay`:
`(now.year - last_match_date.year) * 12 + now.month - last_match_date.month`. -/
def monthsBetween (now last : Date) : Int :=
  (now.year - last.year) * 12 + now.month - last.month

/-- Embedding of `TennisEloRatingSystem._apply_time_decay`.  The Python
code reads the wall clock with `datetime.now()`; here `now` is passed
explicitly.  No decay for `months_inactive <= 3`; otherwise the rating is
multiplied by `(1 - MONTHLY_DECAY_RATE) ** (months_inactive - 3)` and
floored at `MIN_RATING_AFTER_DECAY`. -/
def applyTimeDecay (now : Date) (rating : ℚ) (lastMatchDate : Date) : ℚ :=
  let monthsInactive := monthsBetween now lastMatchDate
  if monthsInactive ≤ 3 then rating
  else
    let decayFactor := (1 - MONTHLY_DECAY_RATE) ^ (monthsInactive - 3).toNat
    pyMax (rating * decayFactor) MIN_RATING_AFTER_DECAY

/-- In-memory state of `TennisEloRatingSystem`: the `_ratings` dict maps a
player name to a per-player dict whose keys are `overall` and surface
names, and `_last_match_dates` maps a player name to a date.  Python
dicts are modelled as partial functions. -/
structure EloState where
  ratings : String → Option (String → Option ℚ)
  lastMatchDates : String → Option Date

/-- Embedding of `TennisEloRatingSystem.get_rating`.  Resolution order as
in the code: the surface entry when `surface` is truthy (non-empty) and
present, else the `overall` entry, else the default; then time decay is
applied when a last-match date is recorded. -/
def getRating (st : EloState) (player : String) (surface : Option String)
    (now : Date) : ℚ :=
  match st.ratings player with
  | none => DEFAULT_RATING
  | some playerRatings =>
    let surfaceHit : Option ℚ :=
      match surface with
      | some s => if s = "" then none else playerRatings s
      | none => none
    let baseRating : ℚ :=
      match surfaceHit with
      | some r => r
      | none =>
        match playerRatings "overall" with
        | some r => r
        | none => DEFAULT_RATING
    match st.lastMatchDates player with
    | some last => applyTimeDecay now baseRating last
    | none => baseRating

/-- Embedding of `TennisEloRatingSystem._calculate_smart_initial_rating`:
the cold-start tier table keyed on the opponent rating. -/
def smartInitialRating (opponentRating : ℚ) : ℚ :=
  if opponentRating ≥ 2200 then 1900
  else if opponentRating ≥ 1900 then 1700
  else if opponentRating ≥ 1700 then 1600
  else if opponentRating ≥ 1600 then 1550
  else DEFAULT_RATING

/-- First step of `update_ratings`: both players get `match_date` recorded
as their last-match date (winner assigned first, then loser). -/
def updateLastDates (st : EloState) (winner loser : String) (matchDate : Date) :
    EloState :=
  { st with
    lastMatchDates := fun p =>
      if p = loser then some matchDate
      else if p = winner then some matchDate
      else st.lastMatchDates p }

/-- Test `player not in self._ratings` used by `update_ratings` to decide
whether a player is new. -/
def isNew (st : EloState) (player : String) : Bool :=
  (st.ratings player).isNone

/-- Embedding of the seeding phase of `TennisEloRatingSystem.update_ratings`
(lines computing `rating_winner` and `rating_loser`).  The last-match
dates are updated first, exactly as in the code, so the `get_rating`
calls below see `matchDate` as both players last-match date.  For a new
player the opponent rating fed to the tier table is `get_rating(opponent,
surface)` when the opponent is not new, else the default. -/
def updateRatingsSeeds (st : EloState) (winner loser surface : String)
    (matchDate now : Date) : ℚ × ℚ :=
  let st1 := updateLastDates st winner loser matchDate
  let isWinnerNew := isNew st1 winner
  let isLoserNew := isNew st1 loser
  let ratingWinner : ℚ :=
    if isWinnerNew then
      smartInitialRating
        (if isLoserNew then DEFAULT_RATING
         else getRating st1 loser (some surface) now)
    else getRating st1 winner (some surface) now
  let ratingLoser : ℚ :=
    if isLoserNew then
      smartInitialRating
        (if isWinnerNew then DEFAULT_RATING
         else getRating st1 winner (some surface) now)
    else getRating st1 loser (some surface) now
  (ratingWinner, ratingLoser)

/-- Characters treated as whitespace by Python `str.strip()` /
`str.split()` (ASCII subset). -/
def pyIsSpace (c : Char) : Bool :=
  c == ' ' || c == '\t' || c == '\n' || c == '\x0d' || c == '\x0b' || c == '\x0c'

/-- Python `str.strip()`: drop leading and trailing whitespace. -/
def pyStrip (s : String) : String :=
  String.mk ((((s.toList.dropWhile pyIsSpace).reverse).dropWhile pyIsSpace).reverse)

/-- Helper for `pySplitWs`: split a character list on whitespace runs,
accumulating the current (reversed) token. -/
def wsSplitAux : List Char → List Char → List (List Char)
  | [], acc => if acc.isEmpty then [] else [acc.reverse]
  | c :: cs, acc =>
    if pyIsSpace c then
      if acc.isEmpty then wsSplitAux cs []
      else acc.reverse :: wsSplitAux cs []
    else wsSplitAux cs (c :: acc)

/-- Python `str.split()` with no separator: split on whitespace runs,
discarding empty tokens. -/
def pySplitWs (s : String) : List String :=
  (wsSplitAux s.toList []).map String.mk

/-- Helper for `pySplitOn`: split a character list at every occurrence of
the separator, keeping empty fields. -/
def charSplitAux (sep : Char) : List Char → List Char → List (List Char)
  | [], acc => [acc.reverse]
  | c :: cs, acc =>
    if c == sep then acc.reverse :: charSplitAux sep cs []
    else charSplitAux sep cs (c :: acc)

/-- Python `str.split(sep)` with a one-character separator: splits at
every occurrence, keeping empty fields. -/
def pySplitOn (sep : Char) (s : String) : List String :=
  (charSplitAux sep s.toList []).map String.mk

/-- Numeric value of a digit list. -/
def digitsVal (cs : List Char) : Int :=
  cs.foldl (fun a c => a * 10 + (Int.ofNat (c.toNat - '0'.toNat))) 0

/-- Python `int(s)` on a string, returning `none` where Python raises
`ValueError`: surrounding whitespace is stripped, an optional single sign
is allowed, and the remainder must be a non-empty digit sequence
(digit-group underscores, a Python nicety irrelevant to score strings,
are treated as malformed). -/
def pyInt (s : String) : Option Int :=
  let cs := (pyStrip s).toList
  match cs with
  | '-' :: rest =>
    if rest ≠ [] ∧ rest.all Char.isDigit then some (-(digitsVal rest)) else none
  | '+' :: rest =>
    if rest ≠ [] ∧ rest.all Char.isDigit then some (digitsVal rest) else none
  | _ =>
    if cs ≠ [] ∧ cs.all Char.isDigit then some (digitsVal cs) else none

/-- Contribution of one token of the winner score string to `sets_won` in
`_calculate_sets_multiplier`: a token counts 1 when it contains a dash,
splits on dashes into exactly two fields, both fields parse as integers,
and the first (winner games) exceeds the second (loser games). -/
def setScoreSetsWon (setScore : String) : Nat :=
  if setScore.toList.contains '-' then
    match pySplitOn '-' setScore with
    | [a, b] =>
      match pyInt a, pyInt b with
      | some winnerGames, some loserGames =>
        if winnerGames > loserGames then 1 else 0
      | _, _ => 0
    | _ => 0
  else 0

/-- Number of sets won by the winner according to the parsing loop of
`_calculate_sets_multiplier`: strip and whitespace-split the winner score
string, then count qualifying tokens. -/
def setsWonCount (winnerScore : String) : Nat :=
  (pySplitWs (pyStrip winnerScore)).foldl (fun acc s => acc + setScoreSetsWon s) 0

/-- Embedding of `TennisEloRatingSystem._calculate_sets_multiplier`.  A
falsy winner score (`None` or the empty string) yields 1.0 immediately;
otherwise the multiplier is 1.2 for exactly 2 counted sets, 1.3 for
exactly 3, and 1.0 otherwise.  The Python body is wrapped in a
try/except returning 1.0; with string inputs no operation inside can
throw, and this embedding is a total function, so no exception case is
modelled. -/
def calculateSetsMultiplier (winnerScore loserScore : Option String) : ℚ :=
  match winnerScore with
  | none => 1
  | some ws =>
    if ws = "" then 1
    else
      let setsWon := setsWonCount ws
      if setsWon = 2 then 12/10
      else if setsWon = 3 then 13/10
      else 1

/-- Predicate for `player in self._ratings and surface in self._ratings[player]`
used by `predict_match` to detect a surface-specific rating (no emptiness
check here: the membership test is on the raw surface string). -/
def hasSurfaceRating (st : EloState) (player surface : String) : Bool :=
  match st.ratings player with
  | none => false
  | some playerRatings => (playerRatings surface).isSome

/-- Embedding of `TennisEloRatingSystem._calculate_expected_score`, the
logistic Elo formula `1 / (1 + 10 ** ((rating_b - rating_a) / 400))`,
over the reals. -/
noncomputable def calculateExpectedScore (ratingA ratingB : ℝ) : ℝ :=
  1 / (1 + (10 : ℝ) ^ ((ratingB - ratingA) / 400))

/-- Embedding of `TennisEloRatingSystem.predict_match`: decayed ratings
for both players on the surface, a flat `surface_advantage * 0.5` bonus
when exactly one player has a surface-specific entry, then the logistic
formula; the second probability is `1 - expected1`. -/
noncomputable def predictMatch (st : EloState) (player1 player2 surface : String)
    (now : Date) : ℝ × ℝ :=
  let rating1 : ℝ := (getRating st player1 (some surface) now : ℝ)
  let rating2 : ℝ := (getRating st player2 (some surface) now : ℝ)
  let p1HasSurface := hasSurfaceRating st player1 surface
  let p2HasSurface := hasSurfaceRating st player2 surface
  let rating1 :=
    if p1HasSurface && !p2HasSurface then
      rating1 + (DEFAULT_SURFACE_ADVANTAGE : ℝ) * (1/2)
    else rating1
  let rating2 :=
    if p2HasSurface && !p1HasSurface then
      rating2 + (DEFAULT_SURFACE_ADVANTAGE : ℝ) * (1/2)
    else rating2
  let expected1 := calculateExpectedScore rating1 rating2
  (expected1, 1 - expected1)

/-- Embedding of `StandardOddsConverter.decimal_to_probability`:
`1.0 / odds`, raising `ValueError` on non-positive odds. -/
def decimal_to_probability (odds : ℚ) : Except String ℚ :=
  if odds ≤ 0 then .error "Decimal odds must be positive"
  else .ok (1 / odds)

/-- Embedding of `StandardOddsConverter.american_to_probability`:
`100 / (odds + 100)` for positive odds, `abs(odds) / (abs(odds) + 100)`
for negative odds, raising `ValueError` on zero. -/
def american_to_probability (odds : ℚ) : Except String ℚ :=
  if odds = 0 then .error "American odds cannot be zero"
  else if odds > 0 then .ok (100 / (odds + 100))
  else .ok (pyAbs odds / (pyAbs odds + 100))

/-- Embedding of `StandardOddsConverter.probability_to_decimal`:
`1.0 / probability`, raising `ValueError` unless `0 < probability < 1`. -/
def probability_to_decimal (probability : ℚ) : Except String ℚ :=
  if 0 < probability ∧ probability < 1 then .ok (1 / probability)
  else .error "Probability must be between 0 and 1"

/-- Embedding of `StandardOddsConverter.probability_to_american`:
`-100 * p / (1 - p)` for `p >= 0.5`, `100 * (1 - p) / p` below, raising
`ValueError` unless `0 < p < 1`. -/
def probability_to_american (probability : ℚ) : Except String ℚ :=
  if 0 < probability ∧ probability < 1 then
    if probability ≥ 1/2 then .ok (-100 * probability / (1 - probability))
    else .ok (100 * (1 - probability) / probability)
  else .error "Probability must be between 0 and 1"

/-- Result of `BettingEdge.from_probabilities` in
`src/src/core/domain_models.py`. -/
structure BettingEdge where
  player : String
  probability_edge : ℚ
  expected_value : ℚ
  recommendation : String
deriving DecidableEq

/-- Embedding of the classmethod `BettingEdge.from_probabilities`:
`prob_edge = (our_prob - bookie_prob) * 100`,
`expected_value = (our_prob * odds - 1) * 100`, recommendation tiered by
`STRONG_BET_THRESHOLD` and `BET_THRESHOLD`. -/
def BettingEdge.from_probabilities (player : String)
    (our_prob bookie_prob odds : ℚ) : BettingEdge :=
  let prob_edge := (our_prob - bookie_prob) * 100
  let expected_value := (our_prob * odds - 1) * 100
  let recommendation :=
    if expected_value ≥ STRONG_BET_THRESHOLD then "strong_bet"
    else if expected_value ≥ BET_THRESHOLD then "bet"
    else "pass"
  ⟨player, prob_edge, expected_value, recommendation⟩

/-- Dataclass `ValueBet` from `src/src/core/domain_models.py`, with
floats as rationals and the commence time as an abstract timestamp. -/
structure ValueBet where
  match_id : String
  player1 : String
  player2 : String
  bet_on_player : String
  is_player1_bet : Bool
  bookmaker : String
  odds : ℚ
  odds_format : String
  our_probability : ℚ
  bookmaker_probability : ℚ
  edge_percentage : ℚ
  expected_value_percentage : ℚ
  commence_time : Int
  surface : String
  tour : String
deriving DecidableEq

/-- Embedding of the private method `ValueBet._american_to_decimal`:
`1 + odds / 100` for positive odds, else `1 + 100 / abs(odds)`, which on
zero odds divides by zero (Python `ZeroDivisionError`). -/
def americanToDecimal (americanOdds : ℚ) : Except String ℚ :=
  if americanOdds > 0 then .ok (1 + americanOdds / 100)
  else if americanOdds = 0 then .error "ZeroDivisionError"
  else .ok (1 + 100 / pyAbs americanOdds)

/-- Kelly computation at the heart of `ValueBet.recommended_stake`: the
fractional Kelly stake `max(0, KELLY_FRACTION * (b * p - q) / b)` with
`b = decimal_odds - 1`, `p = our_probability`, `q = 1 - p`.  When
`b = 0` (decimal odds exactly 1) the Python division `(b * p - q) / b`
raises `ZeroDivisionError`, modelled as an error value. -/
def kellyStakeFromOdds (vb : ValueBet) (decimalOdds : ℚ) : Except String (Option ℚ) :=
  let b := decimalOdds - 1
  if b = 0 then .error "ZeroDivisionError"
  else
    let p := vb.our_probability
    let q := 1 - p
    let kelly := (b * p - q) / b
    .ok (some (pyMax 0 (kelly * KELLY_FRACTION)))

/-- Resolution of the decimal odds in `recommended_stake` from the odds
format (the conditional expression in the Python property). -/
def resolveDecimalOdds (vb : ValueBet) : Except String ℚ :=
  if vb.odds_format = "decimal" then .ok vb.odds
  else americanToDecimal vb.odds

/-- Embedding of the property `ValueBet.recommended_stake` (full
definition combining the pieces above): `None` when
`edge_percentage <= 0`; else the Kelly computation on the resolved
decimal odds. -/
def ValueBet.recommended_stake (vb : ValueBet) : Except String (Option ℚ) :=
  if vb.edge_percentage ≤ 0 then .ok none
  else
    match resolveDecimalOdds vb with
    | .error e => .error e
    | .ok decimalOdds => kellyStakeFromOdds vb decimalOdds

/-- Match key used by `BettingService._select_best_bet_per_match`:
`f"{bet.player1}_{bet.player2}"` (order-dependent). -/
def matchKey (vb : ValueBet) : String :=
  vb.player1 ++ "_" ++ vb.player2

/-- One step of the grouping loop in `_select_best_bet_per_match`,
modelling the insertion-ordered Python dict as an association list: a
fresh key is appended at the end; an existing key keeps its position and
its bet is replaced only when the new bet has strictly higher
`expected_value_percentage`. -/
def insertBet : List (String × ValueBet) → ValueBet → List (String × ValueBet)
  | [], b => [(matchKey b, b)]
  | (k, v) :: rest, b =>
    if matchKey b = k then
      if b.expected_value_percentage > v.expected_value_percentage then
        (k, b) :: rest
      else (k, v) :: rest
    else (k, v) :: insertBet rest b

/-- Embedding of `BettingService._select_best_bet_per_match`: fold the
bets into the keyed dictionary and return its values in insertion
order. -/
def selectBestBetPerMatch (bets : List ValueBet) : List ValueBet :=
  (bets.foldl insertBet []).map Prod.snd

/-- Concrete value bet with decimal odds exactly 1.0 and a positive edge,
exercising the `b = 0` branch of `recommended_stake`. -/
def c3ZeroOddsBet : ValueBet :=
  ⟨"m1", "Alice", "Bob", "Alice", true, "bk", 1, "decimal",
   6/10, 1/2, 5, 20, 0, "hard", "atp"⟩

/-- Concrete value bet matching the Kelly scenario of the claim: decimal
odds 2.0, our probability 0.6. -/
def c3KellyBet : ValueBet :=
  ⟨"m2", "Alice", "Bob", "Alice", true, "bk", 2, "decimal",
   6/10, 1/2, 10, 20, 0, "hard", "atp"⟩

/-- Stored per-player dict of an established player rated exactly 1600
overall. -/
def c4VeteranRatings : String → Option ℚ :=
  fun k => if k = "overall" then some 1600 else none

/-- Rating state with one established player (`Veteran`, overall 1600, no
recorded last-match date yet) and no entry for `Rookie`. -/
def c4State : EloState :=
  ⟨fun p => if p = "Veteran" then some c4VeteranRatings else none,
   fun _ => none⟩

/-- Concrete value bet on the match `Alice` vs `Bob` listed in that
player order. -/
def c9BetAB : ValueBet :=
  ⟨"m1", "Alice", "Bob", "Alice", true, "bk1", 2, "decimal",
   6/10, 1/2, 10, 20, 0, "hard", "atp"⟩

/-- Concrete value bet on the same match as `c9BetAB` but with the two
players listed in the opposite order (as another bookmaker or feed may
list them), and a lower expected value. -/
def c9BetBA : ValueBet :=
  ⟨"m1", "Bob", "Alice", "Bob", true, "bk2", 3, "decimal",
   35/100, 1/3, 167/100, 5, 0, "hard", "atp"⟩

/-- Stored per-player dict of a player rated 1100 overall, strictly below
the decay floor. -/
def c10LowRatings : String → Option ℚ :=
  fun k => if k = "overall" then some 1100 else none

/-- Rating state with one long-inactive player stored below the decay
floor (overall 1100, last match January 2024). -/
def c10State : EloState :=
  ⟨fun p => if p = "Inactive" then some c10LowRatings else none,
   fun p => if p = "Inactive" then some ⟨2024, 1⟩ else none⟩

/-- Python `max` agrees with the mathematical `max` on rationals. -/
theorem pyMax_eq_max (a b : ℚ) : pyMax a b = max a b := by
  unfold pyMax
  rcases le_total a b with h | h
  · rcases eq_or_lt_of_le h with rfl | hlt
    · simp
    · rw [if_neg (by simpa using hlt.not_le), max_eq_right h]
  · rw [if_pos h, max_eq_left h]

/-- Python `abs` agrees with the mathematical absolute value on
rationals. -/
theorem pyAbs_eq_abs (a : ℚ) : pyAbs a = |a| := by
  unfold pyAbs
  rcases lt_or_le a 0 with h | h
  · rw [if_pos h, abs_of_neg h]
  · rw [if_neg (not_lt.mpr h), abs_of_nonneg h]

/-- C2: `BettingEdge.from_probabilities` computes
`probability_edge = (our_prob - bookie_prob) * 100` and
`expected_value = (our_prob * odds - 1) * 100`, recommends `strong_bet`
exactly when the expected value is at least 10, `bet` exactly when it is
in `[5, 10)`, and `pass` exactly when it is below 5; in particular odds
2.00 with our probability 0.60 against implied probability 0.50 gives a
10-point edge, expected value 20 and a `strong_bet`. -/
theorem claim_C2 (player : String) (our_prob bookie_prob odds : ℚ) :
    (BettingEdge.from_probabilities player our_prob bookie_prob odds).probability_edge
      = (our_prob - bookie_prob) * 100 ∧
    (BettingEdge.from_probabilities player our_prob bookie_prob odds).expected_value
      = (our_prob * odds - 1) * 100 ∧
    ((BettingEdge.from_probabilities player our_prob bookie_prob odds).recommendation
        = "strong_bet" ↔ 10 ≤ (our_prob * odds - 1) * 100) ∧
    ((BettingEdge.from_probabilities player our_prob bookie_prob odds).recommendation
        = "bet" ↔ 5 ≤ (our_prob * odds - 1) * 100 ∧ (our_prob * odds - 1) * 100 < 10) ∧
    ((BettingEdge.from_probabilities player our_prob bookie_prob odds).recommendation
        = "pass" ↔ (our_prob * odds - 1) * 100 < 5) ∧
    BettingEdge.from_probabilities "Alice" (6/10) (1/2) 2
      = ⟨"Alice", 10, 20, "strong_bet"⟩ := by
  have hrec : (BettingEdge.from_probabilities player our_prob bookie_prob odds).recommendation
      = (if (our_prob * odds - 1) * 100 ≥ 10 then "strong_bet"
         else if (our_prob * odds - 1) * 100 ≥ 5 then "bet" else "pass") := rfl
  refine ⟨rfl, rfl, ?_, ?_, ?_, ?_⟩
  · rw [hrec]; split_ifs with h1 h2
    · exact iff_of_true rfl h1
    · exact iff_of_false (by decide) h1
    · exact iff_of_false (by decide) h1
  · rw [hrec]; split_ifs with h1 h2
    · exact iff_of_false (by decide) (fun h => absurd h.2 (not_lt.mpr h1))
    · exact iff_of_true rfl ⟨h2, not_le.mp h1⟩
    · exact iff_of_false (by decide) (fun h => h2 h.1)
  · rw [hrec]; split_ifs with h1 h2
    · exact iff_of_false (by decide) (not_lt.mpr (le_trans (by norm_num) h1))
    · exact iff_of_false (by decide) (not_lt.mpr h2)
    · exact iff_of_true rfl (not_le.mp h2)
  · unfold BettingEdge.from_probabilities STRONG_BET_THRESHOLD BET_THRESHOLD
    norm_num

/-- Helper: the empty score string contains no countable sets. -/
theorem setsWonCount_empty : setsWonCount "" = 0 := rfl

/-- C5: the sets multiplier never throws (it is a total function of the
two optional score strings) and equals 1.2 exactly when the winner score
string shows exactly 2 sets won by the winner, 1.3 exactly when it shows
exactly 3, and 1.0 in every other case, including an absent, empty, or
malformed winner score. -/
theorem claim_C5 (winnerScore loserScore : Option String) :
    calculateSetsMultiplier winnerScore loserScore =
      (match winnerScore with
       | none => 1
       | some ws =>
         if setsWonCount ws = 2 then 12/10
         else if setsWonCount ws = 3 then 13/10
         else 1) ∧
    calculateSetsMultiplier none loserScore = 1 ∧
    calculateSetsMultiplier (some "") loserScore = 1 ∧
    calculateSetsMultiplier (some "6-4 6-3") (some "4-6 3-6") = 12/10 ∧
    calculateSetsMultiplier (some "6-4 6-3 6-2") none = 13/10 ∧
    calculateSetsMultiplier (some "7-5") none = 1 ∧
    calculateSetsMultiplier (some "not a score") none = 1 := by
  refine ⟨?_, rfl, rfl, by with_unfolding_all decide, by with_unfolding_all decide,
    by with_unfolding_all decide, by with_unfolding_all decide⟩
  match winnerScore with
  | none => rfl
  | some ws =>
    by_cases hws : ws = ""
    · subst hws
      simp [calculateSetsMultiplier, setsWonCount_empty]
    · simp [calculateSetsMultiplier, hws]

/-- Characterization of `applyTimeDecay` with the Python `max` replaced
by the mathematical `max`. -/
theorem applyTimeDecay_eq (now : Date) (r : ℚ) (last : Date) :
    applyTimeDecay now r last =
      if monthsBetween now last ≤ 3 then r
      else max (r * (1 - MONTHLY_DECAY_RATE) ^ (monthsBetween now last - 3).toNat)
             MIN_RATING_AFTER_DECAY := by
  show (if monthsBetween now last ≤ 3 then r
        else pyMax (r * (1 - MONTHLY_DECAY_RATE) ^ (monthsBetween now last - 3).toNat)
               MIN_RATING_AFTER_DECAY) = _
  split_ifs with h
  · rfl
  · exact pyMax_eq_max _ _

/-- C6: no decay for inactivity of at most 3 months; beyond 3 months the
decayed rating is `max (r * (1 - 0.015) ^ (monthsInactive - 3)) 1200`;
and for a rating above the 1200 floor the decayed value never exceeds the
stored rating, never drops below 1200, and is non-increasing as the
inactivity gap grows. -/
theorem claim_C6 (r : ℚ) (now now2 last : Date) :
    (monthsBetween now last ≤ 3 → applyTimeDecay now r last = r) ∧
    (3 < monthsBetween now last →
      applyTimeDecay now r last =
        max (r * (1 - MONTHLY_DECAY_RATE) ^ (monthsBetween now last - 3).toNat)
          MIN_RATING_AFTER_DECAY) ∧
    (MIN_RATING_AFTER_DECAY < r →
      applyTimeDecay now r last ≤ r ∧
      MIN_RATING_AFTER_DECAY ≤ applyTimeDecay now r last ∧
      (monthsBetween now last ≤ monthsBetween now2 last →
        applyTimeDecay now2 r last ≤ applyTimeDecay now r last)) := by
  have hf0 : (0:ℚ) ≤ 1 - MONTHLY_DECAY_RATE := by norm_num [MONTHLY_DECAY_RATE]
  have hf1 : (1 - MONTHLY_DECAY_RATE : ℚ) ≤ 1 := by norm_num [MONTHLY_DECAY_RATE]
  refine ⟨fun h => by rw [applyTimeDecay_eq, if_pos h], fun h =>
    by rw [applyTimeDecay_eq, if_neg (not_le.mpr h)], fun hr => ?_⟩
  have hr0 : (0:ℚ) ≤ r :=
    le_of_lt (lt_trans (by norm_num [MIN_RATING_AFTER_DECAY]) hr)
  have hbounds : ∀ d : Date, applyTimeDecay d r last ≤ r ∧
      MIN_RATING_AFTER_DECAY ≤ applyTimeDecay d r last := by
    intro d
    rw [applyTimeDecay_eq]
    split_ifs with h
    · exact ⟨le_rfl, le_of_lt hr⟩
    · constructor
      · exact max_le (mul_le_of_le_one_right hr0 (pow_le_one₀ hf0 hf1)) (le_of_lt hr)
      · exact le_max_right _ _
  refine ⟨(hbounds now).1, (hbounds now).2, fun hmono => ?_⟩
  rw [applyTimeDecay_eq, applyTimeDecay_eq]
  by_cases h2 : monthsBetween now2 last ≤ 3
  · rw [if_pos h2, if_pos (le_trans hmono h2)]
  · rw [if_neg h2]
    by_cases h1 : monthsBetween now last ≤ 3
    · rw [if_pos h1]
      exact max_le (mul_le_of_le_one_right hr0 (pow_le_one₀ hf0 hf1)) (le_of_lt hr)
    · rw [if_neg h1]
      refine max_le_max ?_ le_rfl
      exact mul_le_mul_of_nonneg_left
        (pow_le_pow_of_le_one hf0 hf1 (Int.toNat_le_toNat (by omega))) hr0

/-- Witness for C6 at rating 1600, last match January 2024, evaluation
dates January 2025 and June 2025. -/
theorem claim_C6_witness :
    (3 < monthsBetween ⟨2025, 1⟩ ⟨2024, 1⟩) ∧
    (MIN_RATING_AFTER_DECAY < (1600:ℚ)) ∧
    (monthsBetween ⟨2025, 1⟩ ⟨2024, 1⟩ ≤ monthsBetween ⟨2025, 6⟩ ⟨2024, 1⟩) ∧
    applyTimeDecay ⟨2025, 1⟩ 1600 ⟨2024, 1⟩ ≤ 1600 ∧
    MIN_RATING_AFTER_DECAY ≤ applyTimeDecay ⟨2025, 1⟩ 1600 ⟨2024, 1⟩ ∧
    applyTimeDecay ⟨2025, 6⟩ 1600 ⟨2024, 1⟩ ≤ applyTimeDecay ⟨2025, 1⟩ 1600 ⟨2024, 1⟩ ∧
    applyTimeDecay ⟨2025, 1⟩ 1600 ⟨2024, 1⟩ =
      max (1600 * (1 - MONTHLY_DECAY_RATE) ^ (monthsBetween ⟨2025, 1⟩ ⟨2024, 1⟩ - 3).toNat)
        MIN_RATING_AFTER_DECAY := by
  have hfloor : MIN_RATING_AFTER_DECAY < (1600:ℚ) := by
    with_unfolding_all decide
  have h := claim_C6 1600 ⟨2025, 1⟩ ⟨2025, 6⟩ ⟨2024, 1⟩
  exact ⟨by decide, hfloor, by decide, (h.2.2 hfloor).1, (h.2.2 hfloor).2.1,
    (h.2.2 hfloor).2.2 (by decide), h.2.1 (by decide)⟩

/-- C7: for any probability strictly between 0 and 1, converting to
decimal odds and back recovers the probability exactly, and likewise for
the American-odds pair. -/
theorem claim_C7 (p : ℚ) (h0 : 0 < p) (h1 : p < 1) :
    (probability_to_decimal p).bind decimal_to_probability = .ok p ∧
    (probability_to_american p).bind american_to_probability = .ok p := by
  have hp1 : (0:ℚ) < 1 - p := by linarith
  have hne : (1 - p) ≠ 0 := ne_of_gt hp1
  constructor
  · rw [probability_to_decimal, if_pos ⟨h0, h1⟩]
    show decimal_to_probability (1 / p) = .ok p
    rw [decimal_to_probability, if_neg (not_le.mpr (by positivity))]
    rw [one_div_one_div]
  · rw [probability_to_american, if_pos ⟨h0, h1⟩]
    by_cases hhalf : p ≥ 1/2
    · rw [if_pos hhalf]
      show american_to_probability (-100 * p / (1 - p)) = .ok p
      have hneg : -100 * p / (1 - p) < 0 :=
        div_neg_of_neg_of_pos (by linarith) hp1
      rw [american_to_probability, if_neg (ne_of_lt hneg),
        if_neg (not_lt.mpr (le_of_lt hneg)), pyAbs, if_pos hneg]
      congr 1
      field_simp
      ring
    · rw [if_neg hhalf]
      show american_to_probability (100 * (1 - p) / p) = .ok p
      have hpos : 0 < 100 * (1 - p) / p := by positivity
      rw [american_to_probability, if_neg (ne_of_gt hpos), if_pos hpos]
      congr 1
      field_simp
      ring

/-- Witness for C7 at probability 0.6. -/
theorem claim_C7_witness :
    (0 : ℚ) < 3/5 ∧ (3/5 : ℚ) < 1 ∧
    (probability_to_decimal (3/5)).bind decimal_to_probability = .ok (3/5) ∧
    (probability_to_american (3/5)).bind american_to_probability = .ok (3/5) := by
  have h := claim_C7 (3/5) (by with_unfolding_all decide) (by with_unfolding_all decide)
  exact ⟨by with_unfolding_all decide, by with_unfolding_all decide, h.1, h.2⟩

/-- C8: each odds-converter function errors exactly on its invalid
inputs and otherwise returns the stated formula: `decimal_to_probability`
errors iff `odds ≤ 0`, else `1/odds`; `american_to_probability` errors
iff `odds = 0`, else `100/(odds+100)` for positive and
`|odds|/(|odds|+100)` for negative odds; the two probability-to-odds
functions error iff the probability is outside the open unit interval. -/
theorem claim_C8 (o p : ℚ) :
    ((∃ e, decimal_to_probability o = .error e) ↔ o ≤ 0) ∧
    (0 < o → decimal_to_probability o = .ok (1/o)) ∧
    ((∃ e, american_to_probability o = .error e) ↔ o = 0) ∧
    (0 < o → american_to_probability o = .ok (100/(o+100))) ∧
    (o < 0 → american_to_probability o = .ok (|o|/(|o|+100))) ∧
    ((∃ e, probability_to_decimal p = .error e) ↔ ¬(0 < p ∧ p < 1)) ∧
    (0 < p → p < 1 → probability_to_decimal p = .ok (1/p)) ∧
    ((∃ e, probability_to_american p = .error e) ↔ ¬(0 < p ∧ p < 1)) := by
  refine ⟨?_, ?_, ?_, ?_, ?_, ?_, ?_, ?_⟩
  · rw [decimal_to_probability]
    split_ifs with h
    · exact iff_of_true ⟨_, rfl⟩ h
    · exact iff_of_false (by simp) h
  · intro h
    rw [decimal_to_probability, if_neg (not_le.mpr h)]
  · rw [american_to_probability]
    split_ifs with h hp
    · exact iff_of_true ⟨_, rfl⟩ h
    · exact iff_of_false (by simp) h
    · exact iff_of_false (by simp) h
  · intro h
    rw [american_to_probability, if_neg (ne_of_gt h), if_pos h]
  · intro h
    rw [american_to_probability, if_neg (ne_of_lt h), if_neg (not_lt.mpr (le_of_lt h)),
      pyAbs_eq_abs]
  · rw [probability_to_decimal]
    split_ifs with h
    · exact iff_of_false (by simp) (not_not_intro h)
    · exact iff_of_true ⟨_, rfl⟩ h
  · intro h0 h1
    rw [probability_to_decimal, if_pos ⟨h0, h1⟩]
  · rw [probability_to_american]
    split_ifs with h hhalf
    · exact iff_of_false (by simp) (not_not_intro h)
    · exact iff_of_false (by simp) (not_not_intro h)
    · exact iff_of_true ⟨_, rfl⟩ h

/-- Witness for C8 at decimal odds 2, American odds -150 and 120,
probability 0.6. -/
theorem claim_C8_witness :
    (0 : ℚ) < 2 ∧ decimal_to_probability 2 = .ok (1/2) ∧
    (0 : ℚ) < 120 ∧ american_to_probability 120 = .ok (100/(120+100)) ∧
    (-150 : ℚ) < 0 ∧ american_to_probability (-150) = .ok (|(-150:ℚ)|/(|(-150:ℚ)|+100)) ∧
    (0 : ℚ) < 3/5 ∧ (3/5 : ℚ) < 1 ∧ probability_to_decimal (3/5) = .ok (1/(3/5)) := by
  refine ⟨by with_unfolding_all decide, (claim_C8 2 (3/5)).2.1 (by with_unfolding_all decide),
    by with_unfolding_all decide, (claim_C8 120 (3/5)).2.2.2.1 (by with_unfolding_all decide),
    by with_unfolding_all decide, (claim_C8 (-150) (3/5)).2.2.2.2.1 (by with_unfolding_all decide),
    by with_unfolding_all decide, by with_unfolding_all decide,
    (claim_C8 2 (3/5)).2.2.2.2.2.2.1 (by with_unfolding_all decide) (by with_unfolding_all decide)⟩

/-- Helper: the logistic Elo expected score lies strictly between 0
and 1 for all finite real ratings. -/
theorem calculateExpectedScore_mem (a b : ℝ) :
    0 < calculateExpectedScore a b ∧ calculateExpectedScore a b < 1 := by
  unfold calculateExpectedScore
  have ht : (0:ℝ) < (10 : ℝ) ^ ((b - a) / 400) :=
    Real.rpow_pos_of_pos (by norm_num) _
  constructor
  · positivity
  · rw [div_lt_one (by linarith)]
    linarith

/-- C1: for every rating state, pair of player names and surface, the
probability pair returned by `predictMatch` sums exactly to 1 (hence
within the 1e-9 tolerance) and each component lies strictly between 0
and 1. -/
theorem claim_C1 (st : EloState) (player1 player2 surface : String) (now : Date) :
    (predictMatch st player1 player2 surface now).1 +
      (predictMatch st player1 player2 surface now).2 = 1 ∧
    |(predictMatch st player1 player2 surface now).1 +
      (predictMatch st player1 player2 surface now).2 - 1| ≤ 1/1000000000 ∧
    0 < (predictMatch st player1 player2 surface now).1 ∧
    (predictMatch st player1 player2 surface now).1 < 1 ∧
    0 < (predictMatch st player1 player2 surface now).2 ∧
    (predictMatch st player1 player2 surface now).2 < 1 := by
  have hmem : ∀ a b : ℝ, 0 < calculateExpectedScore a b ∧ calculateExpectedScore a b < 1 :=
    calculateExpectedScore_mem
  unfold predictMatch
  refine ⟨by ring, by norm_num, ?_, ?_, ?_, ?_⟩
  · exact (hmem _ _).1
  · exact (hmem _ _).2
  · simp only [sub_pos]
    exact (hmem _ _).2
  · have := (hmem ((if hasSurfaceRating st player1 surface && !hasSurfaceRating st player2 surface
        then (getRating st player1 (some surface) now : ℝ) + (DEFAULT_SURFACE_ADVANTAGE : ℝ) * (1/2)
        else (getRating st player1 (some surface) now : ℝ)))
      ((if hasSurfaceRating st player2 surface && !hasSurfaceRating st player1 surface
        then (getRating st player2 (some surface) now : ℝ) + (DEFAULT_SURFACE_ADVANTAGE : ℝ) * (1/2)
        else (getRating st player2 (some surface) now : ℝ)))).1
    linarith

/-- C10: a stored overall rating strictly below the decay floor combined
with an inactivity gap of more than 3 months makes `get_rating` return
exactly the floor 1200, which is strictly above the stored rating. -/
theorem claim_C10 (st : EloState) (player : String) (now last : Date)
    (playerRatings : String → Option ℚ) (r : ℚ)
    (hrat : st.ratings player = some playerRatings)
    (hov : playerRatings "overall" = some r)
    (hlow : r < MIN_RATING_AFTER_DECAY)
    (hlast : st.lastMatchDates player = some last)
    (hinact : 3 < monthsBetween now last) :
    getRating st player none now = MIN_RATING_AFTER_DECAY ∧
    r < getRating st player none now := by
  have hbase : getRating st player none now = applyTimeDecay now r last := by
    unfold getRating
    rw [hrat, hlast]
    show applyTimeDecay now
      (match playerRatings "overall" with
       | some r => r
       | none => DEFAULT_RATING) last = applyTimeDecay now r last
    rw [hov]
  rw [hbase, applyTimeDecay_eq, if_neg (not_le.mpr hinact)]
  have hfpos : (0:ℚ) < (1 - MONTHLY_DECAY_RATE) ^ (monthsBetween now last - 3).toNat := by
    apply pow_pos
    norm_num [MONTHLY_DECAY_RATE]
  have hfle : (1 - MONTHLY_DECAY_RATE : ℚ) ^ (monthsBetween now last - 3).toNat ≤ 1 :=
    pow_le_one₀ (by norm_num [MONTHLY_DECAY_RATE]) (by norm_num [MONTHLY_DECAY_RATE])
  have hmul : r * (1 - MONTHLY_DECAY_RATE) ^ (monthsBetween now last - 3).toNat
      ≤ MIN_RATING_AFTER_DECAY := by
    rcases le_or_lt 0 r with hr0 | hr0
    · exact le_of_lt (lt_of_le_of_lt (mul_le_of_le_one_right hr0 hfle) hlow)
    · have : r * (1 - MONTHLY_DECAY_RATE) ^ (monthsBetween now last - 3).toNat < 0 :=
        mul_neg_of_neg_of_pos hr0 hfpos
      exact le_of_lt (lt_trans this (by norm_num [MIN_RATING_AFTER_DECAY]))
  rw [max_eq_right hmul]
  exact ⟨rfl, hlow⟩

/-- Witness for C10: player `Inactive` stored at 1100 overall with last
match January 2024, read in December 2024. -/
theorem claim_C10_witness :
    c10State.ratings "Inactive" = some c10LowRatings ∧
    c10LowRatings "overall" = some 1100 ∧
    (1100 : ℚ) < MIN_RATING_AFTER_DECAY ∧
    c10State.lastMatchDates "Inactive" = some ⟨2024, 1⟩ ∧
    3 < monthsBetween ⟨2024, 12⟩ ⟨2024, 1⟩ ∧
    getRating c10State "Inactive" none ⟨2024, 12⟩ = MIN_RATING_AFTER_DECAY ∧
    (1100 : ℚ) < getRating c10State "Inactive" none ⟨2024, 12⟩ := by
  have h := claim_C10 c10State "Inactive" ⟨2024, 12⟩ ⟨2024, 1⟩ c10LowRatings 1100
    rfl rfl (by with_unfolding_all decide) rfl (by decide)
  exact ⟨rfl, rfl, by with_unfolding_all decide, rfl, by decide, h.1, h.2⟩

set_option maxRecDepth 2000 in
/-- Counterexample to C4: `Veteran` is stored at exactly 1600 overall,
so the tier table on the stored (non-decayed) rating would seed the new
opponent at 1550; but the seeding call goes through `get_rating`, which
decays the 1600 (the last-match date having just been set to the match
date, 11 months before the evaluation clock) below 1600, so the code
seeds `Rookie` at the default 1500 instead. -/
theorem claim_C4_counterexample :
    isNew c4State "Rookie" = true ∧
    isNew c4State "Veteran" = false ∧
    c4State.ratings "Veteran" = some c4VeteranRatings ∧
    c4VeteranRatings "overall" = some 1600 ∧
    smartInitialRating 1600 = 1550 ∧
    (updateRatingsSeeds c4State "Rookie" "Veteran" "hard" ⟨2024, 1⟩ ⟨2024, 12⟩).1 = 1500 ∧
    (1500 : ℚ) ≠ 1550 := by
  refine ⟨rfl, rfl, rfl, rfl, by with_unfolding_all decide, ?_, by with_unfolding_all decide⟩
  have h1 : (updateRatingsSeeds c4State "Rookie" "Veteran" "hard" ⟨2024, 1⟩ ⟨2024, 12⟩).1
      = smartInitialRating (applyTimeDecay ⟨2024, 12⟩ 1600 ⟨2024, 1⟩) := rfl
  have ht : ((monthsBetween ⟨2024, 12⟩ ⟨2024, 1⟩ : Int) - 3).toNat = 8 := by decide
  rw [h1, applyTimeDecay_eq, if_neg (by decide), ht]
  have hmax : max (1600 * (1 - MONTHLY_DECAY_RATE) ^ (8:ℕ)) MIN_RATING_AFTER_DECAY
      = 1600 * (1 - MONTHLY_DECAY_RATE) ^ (8:ℕ) :=
    max_eq_left (by norm_num [MONTHLY_DECAY_RATE, MIN_RATING_AFTER_DECAY])
  rw [hmax]
  norm_num [smartInitialRating, DEFAULT_RATING, MONTHLY_DECAY_RATE]

/-- C4 (amended): in the seeding phase of `update_ratings`, a single new
player is seeded by the tier table applied to the opponent rating as
returned by `get_rating` on the date-updated state — i.e. the
surface-resolved rating with time decay relative to the wall clock (the
opponent last-match date having just been overwritten with this match
date) — not the stored non-decayed rating; when both players are new,
both are seeded with the default 1500.  The tier table itself maps
opponent ratings `≥ 2200 → 1900`, `≥ 1900 → 1700`, `≥ 1700 → 1600`,
`≥ 1600 → 1550`, else `1500`. -/
theorem claim_C4 (st : EloState) (winner loser surface : String) (matchDate now : Date) :
    (isNew st winner = true → isNew st loser = false →
      (updateRatingsSeeds st winner loser surface matchDate now).1
        = smartInitialRating
            (getRating (updateLastDates st winner loser matchDate) loser (some surface) now)) ∧
    (isNew st winner = false → isNew st loser = true →
      (updateRatingsSeeds st winner loser surface matchDate now).2
        = smartInitialRating
            (getRating (updateLastDates st winner loser matchDate) winner (some surface) now)) ∧
    (isNew st winner = true → isNew st loser = true →
      updateRatingsSeeds st winner loser surface matchDate now
        = (DEFAULT_RATING, DEFAULT_RATING)) ∧
    (∀ x : ℚ, 2200 ≤ x → smartInitialRating x = 1900) ∧
    (∀ x : ℚ, 1900 ≤ x → x < 2200 → smartInitialRating x = 1700) ∧
    (∀ x : ℚ, 1700 ≤ x → x < 1900 → smartInitialRating x = 1600) ∧
    (∀ x : ℚ, 1600 ≤ x → x < 1700 → smartInitialRating x = 1550) ∧
    (∀ x : ℚ, x < 1600 → smartInitialRating x = DEFAULT_RATING) := by
  have hratings : ∀ p, (updateLastDates st winner loser matchDate).ratings p = st.ratings p :=
    fun p => rfl
  refine ⟨?_, ?_, ?_, ?_, ?_, ?_, ?_, ?_⟩
  · intro hw hl
    have hw1 : isNew (updateLastDates st winner loser matchDate) winner = true := hw
    have hl1 : isNew (updateLastDates st winner loser matchDate) loser = false := hl
    simp [updateRatingsSeeds, hw1, hl1]
  · intro hw hl
    have hw1 : isNew (updateLastDates st winner loser matchDate) winner = false := hw
    have hl1 : isNew (updateLastDates st winner loser matchDate) loser = true := hl
    simp [updateRatingsSeeds, hw1, hl1]
  · intro hw hl
    have hw1 : isNew (updateLastDates st winner loser matchDate) winner = true := hw
    have hl1 : isNew (updateLastDates st winner loser matchDate) loser = true := hl
    norm_num [updateRatingsSeeds, hw1, hl1, smartInitialRating, DEFAULT_RATING, Prod.ext_iff]
  · intro x hx
    unfold smartInitialRating
    rw [if_pos hx]
  · intro x h1 h2
    unfold smartInitialRating
    rw [if_neg (not_le.mpr h2), if_pos h1]
  · intro x h1 h2
    unfold smartInitialRating
    rw [if_neg (not_le.mpr (lt_of_lt_of_le h2 (by norm_num))),
      if_neg (not_le.mpr h2), if_pos h1]
  · intro x h1 h2
    unfold smartInitialRating
    rw [if_neg (not_le.mpr (lt_of_lt_of_le h2 (by norm_num))),
      if_neg (not_le.mpr (lt_of_lt_of_le h2 (by norm_num))),
      if_neg (not_le.mpr h2), if_pos h1]
  · intro x h1
    unfold smartInitialRating
    rw [if_neg (not_le.mpr (lt_of_lt_of_le h1 (by norm_num))),
      if_neg (not_le.mpr (lt_of_lt_of_le h1 (by norm_num))),
      if_neg (not_le.mpr (lt_of_lt_of_le h1 (by norm_num))),
      if_neg (not_le.mpr h1)]

/-- Witness for C4: one-new seeding on the concrete state, both-new
seeding, and a tier-table instance. -/
theorem claim_C4_witness :
    isNew c4State "Rookie" = true ∧ isNew c4State "Veteran" = false ∧
    (updateRatingsSeeds c4State "Rookie" "Veteran" "hard" ⟨2024, 1⟩ ⟨2024, 12⟩).1
      = smartInitialRating
          (getRating (updateLastDates c4State "Rookie" "Veteran" ⟨2024, 1⟩) "Veteran"
            (some "hard") ⟨2024, 12⟩) ∧
    isNew c4State "NewA" = true ∧ isNew c4State "NewB" = true ∧
    updateRatingsSeeds c4State "NewA" "NewB" "clay" ⟨2024, 1⟩ ⟨2024, 1⟩
      = (DEFAULT_RATING, DEFAULT_RATING) ∧
    (2200 : ℚ) ≤ 2300 ∧ smartInitialRating 2300 = 1900 := by
  refine ⟨rfl, rfl,
    (claim_C4 c4State "Rookie" "Veteran" "hard" ⟨2024, 1⟩ ⟨2024, 12⟩).1 rfl rfl,
    rfl, rfl,
    (claim_C4 c4State "NewA" "NewB" "clay" ⟨2024, 1⟩ ⟨2024, 1⟩).2.2.1 rfl rfl,
    by norm_num,
    (claim_C4 c4State "NewA" "NewB" "clay" ⟨2024, 1⟩ ⟨2024, 1⟩).2.2.2.1 2300 (by norm_num)⟩

/-- Counterexample to C3: a value bet with positive edge but decimal
odds exactly 1.0 makes the Kelly computation divide by zero, so
`recommended_stake` raises instead of returning a stake. -/
theorem claim_C3_counterexample :
    c3ZeroOddsBet.edge_percentage = 5 ∧ (0:ℚ) < 5 ∧
    c3ZeroOddsBet.odds = 1 ∧ c3ZeroOddsBet.odds_format = "decimal" ∧
    c3ZeroOddsBet.recommended_stake = .error "ZeroDivisionError" := by
  exact ⟨rfl, by with_unfolding_all decide, rfl, rfl, by with_unfolding_all decide⟩


/-- Helper: `recommended_stake` returns `none` exactly from the
non-positive edge branch; every other outcome is an error value or a
`pyMax 0 _` stake. -/
theorem recommended_stake_cases (vb : ValueBet) :
    (vb.edge_percentage ≤ 0 ∧ vb.recommended_stake = .ok none) ∨
    (¬ vb.edge_percentage ≤ 0 ∧
      ((∃ e, vb.recommended_stake = .error e) ∨
       (∃ x, vb.recommended_stake = .ok (some (pyMax 0 x))))) := by
  by_cases he : vb.edge_percentage ≤ 0
  · left
    refine ⟨he, ?_⟩
    unfold ValueBet.recommended_stake
    rw [if_pos he]
  · right
    refine ⟨he, ?_⟩
    unfold ValueBet.recommended_stake
    rw [if_neg he]
    rcases hE : resolveDecimalOdds vb with e | d
    · exact Or.inl ⟨e, rfl⟩
    · by_cases hb : d - 1 = 0
      · refine Or.inl ⟨"ZeroDivisionError", ?_⟩
        show kellyStakeFromOdds vb d = _
        unfold kellyStakeFromOdds
        rw [if_pos hb]
      · refine Or.inr ⟨((d - 1) * vb.our_probability - (1 - vb.our_probability)) / (d - 1)
          * KELLY_FRACTION, ?_⟩
        show kellyStakeFromOdds vb d = _
        unfold kellyStakeFromOdds
        rw [if_neg hb]

/-- C3 (amended): `recommended_stake` returns `None` exactly when the
edge percentage is non-positive; for a positive edge with decimal-format
odds different from 1.0 it returns
`max 0 (((b * p - q) / b) * 0.25)` with `b = odds - 1`, `p` our
probability, `q = 1 - p`; any value it does return is non-negative; but
when the edge is positive and the decimal odds equal exactly 1.0 the
code raises `ZeroDivisionError` instead of returning.  In particular,
decimal odds 2.0 with probability 0.6 yield stake 0.05. -/
theorem claim_C3 (vb : ValueBet) :
    (vb.recommended_stake = .ok none ↔ vb.edge_percentage ≤ 0) ∧
    (0 < vb.edge_percentage → vb.odds_format = "decimal" → vb.odds ≠ 1 →
      vb.recommended_stake = .ok (some (max 0
        ((((vb.odds - 1) * vb.our_probability - (1 - vb.our_probability)) / (vb.odds - 1))
          * KELLY_FRACTION)))) ∧
    (0 < vb.edge_percentage → vb.odds_format = "decimal" → vb.odds = 1 →
      vb.recommended_stake = .error "ZeroDivisionError") ∧
    (match vb.recommended_stake with
     | .ok (some x) => 0 ≤ x
     | _ => True) := by
  have hpyMax_nonneg : ∀ x : ℚ, 0 ≤ pyMax 0 x := by
    intro x
    unfold pyMax
    split_ifs with h
    · exact le_refl 0
    · exact le_of_lt (lt_of_not_ge h)
  refine ⟨?_, ?_, ?_, ?_⟩
  · constructor
    · intro h
      rcases recommended_stake_cases vb with ⟨he, _⟩ | ⟨he, hrest⟩
      · exact he
      · exfalso
        rcases hrest with ⟨e, hee⟩ | ⟨x, hx⟩
        · rw [h] at hee
          exact Except.noConfusion hee
        · rw [h] at hx
          have := Except.ok.inj hx
          exact Option.noConfusion this
    · intro h
      unfold ValueBet.recommended_stake
      rw [if_pos h]
  · intro he hfmt hodds
    have hb : vb.odds - 1 ≠ 0 := sub_ne_zero_of_ne hodds
    have hE : resolveDecimalOdds vb = .ok vb.odds := by
      unfold resolveDecimalOdds
      rw [if_pos hfmt]
    unfold ValueBet.recommended_stake
    rw [if_neg (not_le.mpr he), hE]
    show kellyStakeFromOdds vb vb.odds = _
    unfold kellyStakeFromOdds
    rw [if_neg hb]
    show Except.ok (some (pyMax 0 (((vb.odds - 1) * vb.our_probability -
      (1 - vb.our_probability)) / (vb.odds - 1) * KELLY_FRACTION))) = _
    rw [pyMax_eq_max]
  · intro he hfmt hodds
    have hb : vb.odds - 1 = 0 := by rw [hodds]; ring
    have hE : resolveDecimalOdds vb = .ok vb.odds := by
      unfold resolveDecimalOdds
      rw [if_pos hfmt]
    unfold ValueBet.recommended_stake
    rw [if_neg (not_le.mpr he), hE]
    show kellyStakeFromOdds vb vb.odds = _
    unfold kellyStakeFromOdds
    rw [if_pos hb]
  · rcases recommended_stake_cases vb with ⟨_, hr⟩ | ⟨_, hrest⟩
    · rw [hr]
      trivial
    · rcases hrest with ⟨e, hee⟩ | ⟨x, hx⟩
      · rw [hee]
        trivial
      · rw [hx]
        exact hpyMax_nonneg x

/-- Witness for C3 at the Kelly scenario bet (decimal odds 2.0, our
probability 0.6): the recommended stake is 0.05, and the zero-edge
direction of the iff. -/
theorem claim_C3_witness :
    (0 : ℚ) < c3KellyBet.edge_percentage ∧
    c3KellyBet.odds_format = "decimal" ∧
    c3KellyBet.odds ≠ 1 ∧
    c3KellyBet.recommended_stake = .ok (some (1/20)) := by
  have h := (claim_C3 c3KellyBet).2.1 (by with_unfolding_all decide) rfl
    (by with_unfolding_all decide)
  refine ⟨by with_unfolding_all decide, rfl, by with_unfolding_all decide, ?_⟩
  rw [h]
  norm_num [c3KellyBet, KELLY_FRACTION]

/-- Counterexample to C9: two candidate bets on the same match with the
two players listed in opposite orders get different grouping keys
(`"Alice_Bob"` vs `"Bob_Alice"`), so both survive selection: the
grouping key is order-dependent, not order-independent. -/
theorem claim_C9_counterexample :
    c9BetAB.player1 = c9BetBA.player2 ∧
    c9BetAB.player2 = c9BetBA.player1 ∧
    selectBestBetPerMatch [c9BetAB, c9BetBA] = [c9BetAB, c9BetBA] := by
  exact ⟨rfl, rfl, by with_unfolding_all decide⟩

/-- Helper: entries of the keyed accumulator keep the key of their
stored bet. -/
theorem insertBet_keyConsistent (b : ValueBet) :
    ∀ (acc : List (String × ValueBet)), (∀ p ∈ acc, p.1 = matchKey p.2) →
      ∀ p ∈ insertBet acc b, p.1 = matchKey p.2 := by
  intro acc
  induction acc with
  | nil =>
    intro _ p hp
    rw [insertBet] at hp
    rcases List.mem_singleton.mp hp with rfl
    rfl
  | cons head tail ih =>
    obtain ⟨k, v⟩ := head
    intro hcons p hp
    have hhead : k = matchKey v := hcons (k, v) (List.mem_cons_self _ _)
    have htail : ∀ p ∈ tail, p.1 = matchKey p.2 :=
      fun p hp => hcons p (List.mem_cons_of_mem _ hp)
    rw [insertBet] at hp
    split_ifs at hp with hc hev
    · rcases List.mem_cons.mp hp with rfl | hp
      · rw [← hc]
      · exact htail p hp
    · rcases List.mem_cons.mp hp with rfl | hp
      · exact hhead
      · exact htail p hp
    · rcases List.mem_cons.mp hp with rfl | hp
      · exact hhead
      · exact ih htail p hp

/-- Helper: the keys of the accumulator after an insertion are the old
keys, with the key of the new bet appended when it was absent. -/
theorem insertBet_keys (b : ValueBet) :
    ∀ (acc : List (String × ValueBet)),
      (insertBet acc b).map Prod.fst =
        if matchKey b ∈ acc.map Prod.fst then acc.map Prod.fst
        else acc.map Prod.fst ++ [matchKey b] := by
  intro acc
  induction acc with
  | nil => simp [insertBet]
  | cons head tail ih =>
    obtain ⟨k, v⟩ := head
    rw [insertBet]
    by_cases hc : matchKey b = k
    · rw [if_pos hc, if_pos (show matchKey b ∈ ((k, v) :: tail).map Prod.fst by simp [hc])]
      by_cases hev : b.expected_value_percentage > v.expected_value_percentage
      · rw [if_pos hev]
        simp
      · rw [if_neg hev]
    · rw [if_neg hc]
      simp only [List.map_cons]
      rw [ih]
      by_cases hmem : matchKey b ∈ tail.map Prod.fst
      · rw [if_pos hmem, if_pos (by simp [hmem])]
      · rw [if_neg hmem, if_neg (by simp [hc, hmem])]
        simp

/-- Helper: insertion preserves distinctness of the stored keys. -/
theorem insertBet_nodup (b : ValueBet) (acc : List (String × ValueBet))
    (hnd : (acc.map Prod.fst).Nodup) :
    ((insertBet acc b).map Prod.fst).Nodup := by
  rw [insertBet_keys]
  split_ifs with hmem
  · exact hnd
  · exact List.nodup_append.mpr ⟨hnd, List.nodup_singleton _,
      by simpa [List.disjoint_singleton] using hmem⟩

/-- Helper: every entry after an insertion is an old entry or the fresh
pair for the inserted bet. -/
theorem insertBet_mem (b : ValueBet) :
    ∀ (acc : List (String × ValueBet)), ∀ p ∈ insertBet acc b,
      p ∈ acc ∨ p = (matchKey b, b) := by
  intro acc
  induction acc with
  | nil =>
    intro p hp
    rw [insertBet] at hp
    exact Or.inr (List.mem_singleton.mp hp)
  | cons head tail ih =>
    obtain ⟨k, v⟩ := head
    intro p hp
    rw [insertBet] at hp
    split_ifs at hp with hc hev
    · rcases List.mem_cons.mp hp with rfl | hp
      · exact Or.inr (by rw [hc])
      · exact Or.inl (List.mem_cons_of_mem _ hp)
    · exact Or.inl hp
    · rcases List.mem_cons.mp hp with rfl | hp
      · exact Or.inl (List.mem_cons_self _ _)
      · rcases ih p hp with h | h
        · exact Or.inl (List.mem_cons_of_mem _ h)
        · exact Or.inr h

/-- Helper: after inserting a bet, some entry carries its key and an
expected value at least as large. -/
theorem insertBet_exists_ge (b : ValueBet) :
    ∀ (acc : List (String × ValueBet)),
      ∃ q ∈ insertBet acc b, q.1 = matchKey b ∧
        b.expected_value_percentage ≤ q.2.expected_value_percentage := by
  intro acc
  induction acc with
  | nil =>
    refine ⟨(matchKey b, b), ?_, rfl, le_rfl⟩
    rw [insertBet]
    exact List.mem_singleton.mpr rfl
  | cons head tail ih =>
    obtain ⟨k, v⟩ := head
    rw [insertBet]
    by_cases hc : matchKey b = k
    · rw [if_pos hc]
      by_cases hev : b.expected_value_percentage > v.expected_value_percentage
      · rw [if_pos hev]
        exact ⟨(k, b), List.mem_cons_self _ _, hc.symm, le_rfl⟩
      · rw [if_neg hev]
        exact ⟨(k, v), List.mem_cons_self _ _, hc.symm, not_lt.mp hev⟩
    · rw [if_neg hc]
      obtain ⟨q, hq, hqk, hqle⟩ := ih
      exact ⟨q, List.mem_cons_of_mem _ hq, hqk, hqle⟩

/-- Helper: insertion never loses a key and never lowers the expected
value stored under it. -/
theorem insertBet_ge (b : ValueBet) :
    ∀ (acc : List (String × ValueBet)), ∀ q ∈ acc,
      ∃ r ∈ insertBet acc b, r.1 = q.1 ∧
        q.2.expected_value_percentage ≤ r.2.expected_value_percentage := by
  intro acc
  induction acc with
  | nil =>
    intro q hq
    exact absurd hq (List.not_mem_nil q)
  | cons head tail ih =>
    obtain ⟨k, v⟩ := head
    intro q hq
    rw [insertBet]
    by_cases hc : matchKey b = k
    · rw [if_pos hc]
      by_cases hev : b.expected_value_percentage > v.expected_value_percentage
      · rw [if_pos hev]
        rcases List.mem_cons.mp hq with rfl | hq
        · exact ⟨(k, b), List.mem_cons_self _ _, rfl, le_of_lt hev⟩
        · exact ⟨q, List.mem_cons_of_mem _ hq, rfl, le_rfl⟩
      · rw [if_neg hev]
        exact ⟨q, hq, rfl, le_rfl⟩
    · rw [if_neg hc]
      rcases List.mem_cons.mp hq with rfl | hq
      · exact ⟨(k, v), List.mem_cons_self _ _, rfl, le_rfl⟩
      · obtain ⟨r, hr, hrk, hrle⟩ := ih q hq
        exact ⟨r, List.mem_cons_of_mem _ hr, hrk, hrle⟩

/-- Helper: inserting a bet whose key is fresh appends it at the end. -/
theorem insertBet_fresh (b : ValueBet) :
    ∀ (acc : List (String × ValueBet)), matchKey b ∉ acc.map Prod.fst →
      insertBet acc b = acc ++ [(matchKey b, b)] := by
  intro acc
  induction acc with
  | nil =>
    intro _
    rw [insertBet]
    rfl
  | cons head tail ih =>
    obtain ⟨k, v⟩ := head
    intro hfresh
    have hc : matchKey b ≠ k := by
      intro h
      exact hfresh (by simp [h])
    have htail : matchKey b ∉ tail.map Prod.fst := by
      intro h
      exact hfresh (by simp [h])
    rw [insertBet, if_neg hc, ih htail]
    rfl

/-- Helper: folding a key-distinct, key-consistent accumulator content
over a prefix with disjoint keys appends it unchanged. -/
theorem foldl_insertBet_fresh :
    ∀ (acc pre : List (String × ValueBet)),
      (∀ p ∈ acc, p.1 = matchKey p.2) → (acc.map Prod.fst).Nodup →
      (∀ p ∈ acc, p.1 ∉ pre.map Prod.fst) →
      List.foldl insertBet pre (acc.map Prod.snd) = pre ++ acc := by
  intro acc
  induction acc with
  | nil =>
    intro pre _ _ _
    simp
  | cons head tail ih =>
    obtain ⟨k, v⟩ := head
    intro pre hcons hnd hdisj
    have hkv : k = matchKey v := hcons (k, v) (List.mem_cons_self _ _)
    have hkfresh : matchKey v ∉ pre.map Prod.fst := by
      rw [← hkv]
      exact hdisj (k, v) (List.mem_cons_self _ _)
    simp only [List.map_cons, List.foldl_cons]
    rw [insertBet_fresh v pre hkfresh, ← hkv]
    have hknotintail : k ∉ tail.map Prod.fst := by
      have := hnd
      simp only [List.map_cons, List.nodup_cons] at this
      exact this.1
    rw [ih (pre ++ [(k, v)])
      (fun p hp => hcons p (List.mem_cons_of_mem _ hp))
      (by
        simp only [List.map_cons, List.nodup_cons] at hnd
        exact hnd.2)
      (fun p hp => by
        simp only [List.map_append, List.map_cons, List.map_nil]
        intro hmem
        rcases List.mem_append.mp hmem with hmem | hmem
        · exact hdisj p (List.mem_cons_of_mem _ hp) hmem
        · rcases List.mem_singleton.mp hmem with hkeq
          exact hknotintail (hkeq ▸ List.mem_map_of_mem Prod.fst hp))]
    simp

/-- Helper: the fold of the betting list preserves key consistency and
key distinctness of the accumulator. -/
theorem foldl_insertBet_wf :
    ∀ (bets : List ValueBet) (acc : List (String × ValueBet)),
      (∀ p ∈ acc, p.1 = matchKey p.2) → (acc.map Prod.fst).Nodup →
      (∀ p ∈ bets.foldl insertBet acc, p.1 = matchKey p.2) ∧
        ((bets.foldl insertBet acc).map Prod.fst).Nodup := by
  intro bets
  induction bets with
  | nil =>
    intro acc hcons hnd
    exact ⟨hcons, hnd⟩
  | cons b bs ih =>
    intro acc hcons hnd
    rw [List.foldl_cons]
    exact ih (insertBet acc b) (insertBet_keyConsistent b acc hcons)
      (insertBet_nodup b acc hnd)

/-- Helper: in a key-distinct accumulator, two entries with the same key
coincide. -/
theorem nodup_keys_eq (acc : List (String × ValueBet))
    (hnd : (acc.map Prod.fst).Nodup) :
    ∀ p ∈ acc, ∀ q ∈ acc, p.1 = q.1 → p = q := by
  intro p hp q hq h
  exact List.inj_on_of_nodup_map hnd hp hq h

/-- Helper: every entry surviving the fold stores a bet from the
accumulator or the list, with maximal expected value among the folded
bets sharing its key, and at least the expected value of any accumulator
entry with its key. -/
theorem foldl_insertBet_max :
    ∀ (bets : List ValueBet) (acc : List (String × ValueBet)),
      (∀ p ∈ acc, p.1 = matchKey p.2) → (acc.map Prod.fst).Nodup →
      ∀ p ∈ bets.foldl insertBet acc,
        (p ∈ acc ∨ p.2 ∈ bets) ∧
        (∀ b ∈ bets, matchKey b = p.1 →
          b.expected_value_percentage ≤ p.2.expected_value_percentage) ∧
        (∀ q ∈ acc, q.1 = p.1 →
          q.2.expected_value_percentage ≤ p.2.expected_value_percentage) := by
  intro bets
  induction bets with
  | nil =>
    intro acc hcons hnd p hp
    refine ⟨Or.inl hp, fun b hb => absurd hb (List.not_mem_nil b), ?_⟩
    intro q hq hkey
    rw [nodup_keys_eq acc hnd q hq p hp hkey]
  | cons b bs ih =>
    intro acc hcons hnd p hp
    rw [List.foldl_cons] at hp
    have hcons' := insertBet_keyConsistent b acc hcons
    have hnd' := insertBet_nodup b acc hnd
    obtain ⟨hmem, hmax_bs, hmax_acc'⟩ := ih (insertBet acc b) hcons' hnd' p hp
    refine ⟨?_, ?_, ?_⟩
    · rcases hmem with hacc' | hbs
      · rcases insertBet_mem b acc p hacc' with hacc | rfl
        · exact Or.inl hacc
        · exact Or.inr (List.mem_cons_self _ _)
      · exact Or.inr (List.mem_cons_of_mem _ hbs)
    · intro b' hb' hkey
      rcases List.mem_cons.mp hb' with rfl | hb'tail
      · obtain ⟨q, hqmem, hqkey, hqle⟩ := insertBet_exists_ge b' acc
        exact le_trans hqle (hmax_acc' q hqmem (by rw [hqkey, hkey]))
      · exact hmax_bs b' hb'tail hkey
    · intro q hq hkey
      obtain ⟨r, hrmem, hrkey, hrle⟩ := insertBet_ge b acc q hq
      exact le_trans hrle (hmax_acc' r hrmem (by rw [hrkey, hkey]))

/-- C9 (amended): `selectBestBetPerMatch` groups bets by the
order-dependent `player1_player2` key (not an order-independent pair
key): it keeps at most one bet per ordered key — one with maximal
expected value among the input bets sharing that key, drawn from the
input — and applying it a second time to its own output returns the
output unchanged (idempotence). -/
theorem claim_C9 (l : List ValueBet) (b : ValueBet) :
    selectBestBetPerMatch (selectBestBetPerMatch l) = selectBestBetPerMatch l ∧
    (selectBestBetPerMatch l).Pairwise (fun x y => matchKey x ≠ matchKey y) ∧
    (b ∈ selectBestBetPerMatch l →
      b ∈ l ∧ ∀ b' ∈ l, matchKey b' = matchKey b →
        b'.expected_value_percentage ≤ b.expected_value_percentage) := by
  have hwf := foldl_insertBet_wf l [] (by intro p hp; exact absurd hp (List.not_mem_nil p))
    (by simp)
  obtain ⟨hcons, hnd⟩ := hwf
  refine ⟨?_, ?_, ?_⟩
  · show (List.foldl insertBet []
      ((List.foldl insertBet [] l).map Prod.snd)).map Prod.snd = _
    rw [foldl_insertBet_fresh (List.foldl insertBet [] l) [] hcons hnd
      (by intro p _ h; exact absurd h (List.not_mem_nil _))]
    rw [List.nil_append]
    rfl
  · show ((List.foldl insertBet [] l).map Prod.snd).Pairwise _
    rw [List.pairwise_map]
    have hpair : (List.foldl insertBet [] l).Pairwise (fun x y => x.1 ≠ y.1) :=
      List.pairwise_map.mp hnd
    exact hpair.imp_of_mem (fun {x y} hx hy hne => by
      rw [← hcons x hx, ← hcons y hy]
      exact hne)
  · intro hb
    obtain ⟨p, hp, hpsnd⟩ := List.mem_map.mp hb
    obtain ⟨hmem, hmax, _⟩ := foldl_insertBet_max l []
      (by intro q hq; exact absurd hq (List.not_mem_nil q)) (by simp) p hp
    rcases hmem with hnil | hin
    · exact absurd hnil (List.not_mem_nil p)
    · refine ⟨hpsnd ▸ hin, ?_⟩
      intro b' hb' hkey
      rw [← hpsnd]
      exact hmax b' hb' (by rw [hkey, ← hpsnd, hcons p hp])

/-- Witness for C9 on the concrete two-bet list: the higher-EV bet is in
the output, comes from the input, and dominates its own key. -/
theorem claim_C9_witness :
    c9BetAB ∈ selectBestBetPerMatch [c9BetAB, c9BetBA] ∧
    c9BetAB ∈ [c9BetAB, c9BetBA] ∧
    matchKey c9BetAB = matchKey c9BetAB ∧
    c9BetAB.expected_value_percentage ≤ c9BetAB.expected_value_percentage := by
  have h := (claim_C9 [c9BetAB, c9BetBA] c9BetAB).2.2 (by with_unfolding_all decide)
  exact ⟨by with_unfolding_all decide, h.1, rfl,
    h.2 c9BetAB (by with_unfolding_all decide) rfl⟩
